import Mathlib

/-!
A shallow embedding of the `fileChunker` program (`src/main.go`).

Text is modelled as `List Char`; the inputs in the claims are ASCII, so the
byte-indexed character chunker and the rune-based tokenizer agree on this
representation.  Lines are modelled as an abstract list (the line chunker
never inspects line contents).  The character- and token-mode loops are
embedded with an explicit fuel parameter, returning `none` when the fuel is
exhausted before the loop finishes; this lets non-termination of the source
loop be stated as "`none` for every fuel".
-/

set_option maxRecDepth 20000

/-- Whitespace test used both by `ChunkByCharacters` (line 102 of
`main.go`) and by `tokenize` (line 180). -/
def isWS (c : Char) : Bool := c == ' ' || c == '\n' || c == '\t'

/-- Punctuation set of `tokenize` (`main.go` lines 185-187). -/
def isPunct (c : Char) : Bool :=
  c == '.' || c == ',' || c == ';' || c == ':' || c == '!' || c == '?' ||
  c == '(' || c == ')' || c == '[' || c == ']' || c == '{' || c == '}'

/-- The accumulator loop of `tokenize` (`main.go` lines 173-203): `cur` is
the `current` builder.  Whitespace flushes the run; punctuation flushes the
run and is emitted as its own one-character token; anything else extends the
run; end of input flushes the run. -/
def tokAux : List Char → List Char → List (List Char)
  | [], cur => if cur.isEmpty then [] else [cur]
  | c :: rest, cur =>
    if isWS c then
      (if cur.isEmpty then [] else [cur]) ++ tokAux rest []
    else if isPunct c then
      (if cur.isEmpty then [] else [cur]) ++ [c] :: tokAux rest []
    else
      tokAux rest (cur ++ [c])

/-- `(c *Chunker) tokenize` from `main.go`. -/
def tokenize (t : List Char) : List (List Char) := tokAux t []

/-- The loop body and final flush of `ChunkByLines` (`main.go` lines 44-78).
`cur` is `currentChunk`, `prevOv` is `previousOverlap`.  A new line first
seeds the buffer from the previous overlap if the buffer is empty, then is
appended; the buffer flushes when it reaches `cs` lines, recomputing the
overlap seed; after the last line any non-empty buffer flushes as a final
chunk. -/
def chunkLinesAux {α : Type} (cs ov : Nat) : List α → List α → List α → List (List α)
  | [], cur, _ => if cur.isEmpty then [] else [cur]
  | l :: rest, cur, prevOv =>
    let cur1 := (if cur.isEmpty then prevOv else cur) ++ [l]
    if cs ≤ cur1.length then
      cur1 :: chunkLinesAux cs ov rest []
        (if 0 < ov ∧ ov < cur1.length then cur1.drop (cur1.length - ov) else [])
    else
      chunkLinesAux cs ov rest cur1 prevOv

/-- `ChunkByLines` on an error-free source: the sequence of chunk contents
written, in order. -/
def chunkByLines {α : Type} (cs ov : Nat) (lines : List α) : List (List α) :=
  chunkLinesAux cs ov lines [] []

/-- `ChunkByLines` against a scanner that delivers `lines` and then stops,
reporting an error iff `err` (`scanner.Scan` returns `false` both at EOF and
on error; `scanner.Err()` is only consulted at line 80, after the final
flush at lines 74-78).  Returns the chunks written and the reported error
flag. -/
def chunkLinesScanAux {α : Type} (cs ov : Nat) :
    List α → Bool → List α → List α → List (List α) × Bool
  | [], err, cur, _ => (if cur.isEmpty then [] else [cur], err)
  | l :: rest, err, cur, prevOv =>
    let cur1 := (if cur.isEmpty then prevOv else cur) ++ [l]
    if cs ≤ cur1.length then
      let res := chunkLinesScanAux cs ov rest err []
        (if 0 < ov ∧ ov < cur1.length then cur1.drop (cur1.length - ov) else [])
      (cur1 :: res.1, res.2)
    else
      chunkLinesScanAux cs ov rest err cur1 prevOv

/-- Run of `ChunkByLines` with a possible mid-stream scan error. -/
def chunkLinesScan {α : Type} (cs ov : Nat) (lines : List α) (err : Bool) :
    List (List α) × Bool :=
  chunkLinesScanAux cs ov lines err [] []

/-- One emitted chunk of the character or token chunker: the chunk number,
the half-open source range `[startPos, endPos)` reported in metadata, and the
content written. -/
structure TextChunk where
  num : Nat
  startPos : Nat
  endPos : Nat
  content : List Char
deriving Repr, DecidableEq

/-- The backward boundary scan of `ChunkByCharacters` (`main.go` lines
100-107): `for i := end; i > start && i > end-100; i--`, returning the first
index holding whitespace, else `none`.  `lo` is `max start (end-100)` (the
Go comparison `i > end-100` over ints, with `i > start ≥ 0`, is exactly
`lo < i` over naturals). -/
def snapScan (t : List Char) (lo : Nat) : Nat → Option Nat
  | 0 => none
  | i + 1 =>
    if lo < i + 1 then
      if isWS (t.getD (i + 1) 'x') then some (i + 1) else snapScan t lo i
    else none

/-- The chunk end computed by one iteration of `ChunkByCharacters`
(`main.go` lines 94-107): the tentative end is `min (s+cs) L`, and the
backward boundary snap runs only when the tentative end is interior. -/
def charEnd (t : List Char) (cs s : Nat) : Nat :=
  if min (s + cs) t.length < t.length then
    (snapScan t (max s (min (s + cs) t.length - 100)) (min (s + cs) t.length)).getD
      (min (s + cs) t.length)
  else min (s + cs) t.length

/-- The cursor advance shared by `ChunkByCharacters` (lines 115-123) and
`ChunkByTokens` (lines 157-165): `start = end - overlap` when overlap is
positive, clamped to `end` when `end - overlap` would be negative, else
`start = end`. -/
def advance (ov e : Nat) : Nat :=
  if 0 < ov then (if e < ov then e else e - ov) else e

/-- The loop of `ChunkByCharacters` (`main.go` lines 93-126) with explicit
fuel.  `s` is `start`.  Returns `none` when fuel runs out before the loop
condition fails. -/
def chunkByCharsFuel (t : List Char) (cs ov : Nat) : Nat → Nat → Nat → Option (List TextChunk)
  | 0, _, _ => none
  | fuel + 1, num, s =>
    if s < t.length then
      match chunkByCharsFuel t cs ov fuel (num + 1) (advance ov (charEnd t cs s)) with
      | some rest =>
        some (⟨num, s, charEnd t cs s, (t.drop s).take (charEnd t cs s - s)⟩ :: rest)
      | none => none
    else some []

/-- `strings.Join toks " "` (`main.go` line 151). -/
def joinSp : List (List Char) → List Char
  | [] => []
  | [w] => w
  | w :: ws => w ++ ' ' :: joinSp ws

/-- The loop of `ChunkByTokens` (`main.go` lines 144-168) with explicit
fuel, over an already-tokenized source.  No boundary snap; the content is
the token slice joined with single spaces; the advance is identical to the
character chunker. -/
def chunkByToksFuel (toks : List (List Char)) (cs ov : Nat) :
    Nat → Nat → Nat → Option (List TextChunk)
  | 0, _, _ => none
  | fuel + 1, num, s =>
    if s < toks.length then
      match chunkByToksFuel toks cs ov fuel (num + 1)
          (advance ov (min (s + cs) toks.length)) with
      | some rest =>
        some (⟨num, s, min (s + cs) toks.length,
          joinSp ((toks.drop s).take (min (s + cs) toks.length - s))⟩ :: rest)
      | none => none
    else some []

/-- Length of the maximal run of non-whitespace characters of `t`
containing position `i` (counting backward from `i-1` and forward from
`i`). -/
def runLenAt (t : List Char) (i : Nat) : Nat :=
  ((t.take i).reverse.takeWhile (fun c => !isWS c)).length +
  ((t.drop i).takeWhile (fun c => !isWS c)).length

example : tokenize "ab, c".toList = [['a','b'], [','], ['c']] := by decide

example :
    (chunkByCharsFuel "a b c d e".toList 5 0 10 1 0).map (List.map TextChunk.content) =
      some ["a b c".toList, " d e".toList] := by decide

example : chunkByLines 2 0 [1, 2, 3, 4, 5] = [[1, 2], [3, 4], [5]] := by decide

example : chunkByLines 3 1 [1, 2, 3, 4, 5, 6] = [[1, 2, 3], [3, 4, 5], [5, 6]] := by decide

/-! ### Helper lemmas about the line chunker -/

theorem seed_eq_cur_of_ov0 {α : Type} (cur : List α) :
    (if cur.isEmpty then ([] : List α) else cur) = cur := by
  by_cases h : cur.isEmpty
  · simp [h, List.isEmpty_iff.mp h]
  · simp [h]

theorem chunkLinesAux_join_ov0 {α : Type} (cs : Nat) (lines : List α) :
    ∀ cur : List α, (chunkLinesAux cs 0 lines cur []).flatten = cur ++ lines := by
  induction lines with
  | nil =>
    intro cur
    by_cases h : cur.isEmpty
    · simp [chunkLinesAux, h, List.isEmpty_iff.mp h]
    · simp [chunkLinesAux, h]
  | cons l rest ih =>
    intro cur
    simp only [chunkLinesAux, seed_eq_cur_of_ov0]
    by_cases hf : cs ≤ cur.length + 1
    · simp [hf, ih]
    · simp [hf, ih]



theorem chunkLinesAux_cons_flush {α : Type} (cs ov : Nat) (l : α) (rest cur prevOv : List α)
    (h : cs ≤ ((if cur.isEmpty then prevOv else cur) ++ [l]).length) :
    chunkLinesAux cs ov (l :: rest) cur prevOv =
      ((if cur.isEmpty then prevOv else cur) ++ [l]) ::
        chunkLinesAux cs ov rest []
          (if 0 < ov ∧ ov < ((if cur.isEmpty then prevOv else cur) ++ [l]).length then
            ((if cur.isEmpty then prevOv else cur) ++ [l]).drop
              (((if cur.isEmpty then prevOv else cur) ++ [l]).length - ov)
          else []) := by
  simp only [chunkLinesAux, if_pos h]

theorem chunkLinesAux_cons_noflush {α : Type} (cs ov : Nat) (l : α) (rest cur prevOv : List α)
    (h : ¬ cs ≤ ((if cur.isEmpty then prevOv else cur) ++ [l]).length) :
    chunkLinesAux cs ov (l :: rest) cur prevOv =
      chunkLinesAux cs ov rest ((if cur.isEmpty then prevOv else cur) ++ [l]) prevOv := by
  simp only [chunkLinesAux, if_neg h]

theorem chunkLinesAux_flush_core {α : Type} (cs ov : Nat) :
    ∀ (g : List α), g ≠ [] →
    ∀ (rest cur prevOv : List α), cur ≠ [] →
      cur.length + g.length = cs →
      chunkLinesAux cs ov (g ++ rest) cur prevOv =
        (cur ++ g) ::
          chunkLinesAux cs ov rest []
            (if 0 < ov ∧ ov < cs then (cur ++ g).drop (cs - ov) else []) := by
  intro g
  induction g with
  | nil => intro h; exact absurd rfl h
  | cons l g' ih =>
    intro _ rest cur prevOv hcur hlen
    have hseed : (if cur.isEmpty then prevOv else cur) = cur := by
      cases cur with
      | nil => exact absurd rfl hcur
      | cons a as => rfl
    simp only [List.length_cons] at hlen
    cases g' with
    | nil =>
      have hl1 : (cur ++ [l]).length = cs := by
        simp only [List.length_append, List.length_cons, List.length_nil] at hlen ⊢
        omega
      simp only [List.cons_append, List.nil_append]
      rw [chunkLinesAux_cons_flush cs ov l rest cur prevOv (by rw [hseed]; omega)]
      rw [hseed, hl1]
    | cons x g'' =>
      simp only [List.length_cons, List.length_nil] at hlen
      simp only [List.cons_append]
      have hlt : ¬ cs ≤ (cur ++ [l]).length := by
        simp only [List.length_append, List.length_cons, List.length_nil]
        omega
      rw [chunkLinesAux_cons_noflush cs ov l (x :: (g'' ++ rest)) cur prevOv
        (by rw [hseed]; exact hlt)]
      rw [hseed]
      have h1 := ih (by simp) rest (cur ++ [l]) prevOv (by simp)
        (by simp only [List.length_append, List.length_cons, List.length_nil]; omega)
      simp only [List.cons_append] at h1
      rw [h1]
      simp only [List.append_assoc, List.singleton_append]

theorem chunkLinesAux_flush_seed {α : Type} (cs ov : Nat) (g : List α) (hg : g ≠ [])
    (rest p : List α) (hlen : p.length + g.length = cs) :
    chunkLinesAux cs ov (g ++ rest) [] p =
      (p ++ g) ::
        chunkLinesAux cs ov rest []
          (if 0 < ov ∧ ov < cs then (p ++ g).drop (cs - ov) else []) := by
  cases g with
  | nil => exact absurd rfl hg
  | cons l g' =>
    simp only [List.length_cons] at hlen
    have hseed : (if (List.nil (α := α)).isEmpty then p else []) = p := rfl
    cases g' with
    | nil =>
      have hl1 : (p ++ [l]).length = cs := by
        simp only [List.length_append, List.length_cons, List.length_nil] at hlen ⊢
        omega
      simp only [List.cons_append, List.nil_append]
      rw [chunkLinesAux_cons_flush cs ov l rest [] p (by simp only [List.isEmpty_nil, if_true]; omega)]
      simp only [List.isEmpty_nil, if_true]
      rw [hl1]
    | cons x g'' =>
      simp only [List.length_cons, List.length_nil] at hlen
      simp only [List.cons_append]
      have hlt : ¬ cs ≤ (p ++ [l]).length := by
        simp only [List.length_append, List.length_cons, List.length_nil]
        omega
      rw [chunkLinesAux_cons_noflush cs ov l (x :: (g'' ++ rest)) [] p
        (by simp only [List.isEmpty_nil, if_true]; exact hlt)]
      simp only [List.isEmpty_nil, if_true]
      have h1 := chunkLinesAux_flush_core cs ov (x :: g'') (by simp) rest (p ++ [l]) p
        (by simp)
        (by simp only [List.length_append, List.length_cons, List.length_nil]; omega)
      simp only [List.cons_append] at h1
      rw [h1]
      simp only [List.append_assoc, List.singleton_append]

theorem chunkLinesAux_final_core {α : Type} (cs ov : Nat) :
    ∀ (g : List α), ∀ (cur prevOv : List α), cur ≠ [] →
      cur.length + g.length < cs →
      chunkLinesAux cs ov g cur prevOv = [cur ++ g] := by
  intro g
  induction g with
  | nil =>
    intro cur prevOv hcur _
    have hcur' : cur.isEmpty = false := by
      cases cur with
      | nil => exact absurd rfl hcur
      | cons a as => rfl
    simp [chunkLinesAux, hcur']
  | cons l g' ih =>
    intro cur prevOv hcur hlen
    have hseed : (if cur.isEmpty then prevOv else cur) = cur := by
      cases cur with
      | nil => exact absurd rfl hcur
      | cons a as => rfl
    simp only [List.length_cons] at hlen
    have hlt : ¬ cs ≤ (cur ++ [l]).length := by
      simp only [List.length_append, List.length_cons, List.length_nil]
      omega
    rw [chunkLinesAux_cons_noflush cs ov l g' cur prevOv (by rw [hseed]; exact hlt)]
    rw [hseed]
    rw [ih (cur ++ [l]) prevOv (by simp)
      (by simp only [List.length_append, List.length_cons, List.length_nil]; omega)]
    simp only [List.append_assoc, List.singleton_append]

theorem chunkLinesAux_final_seed {α : Type} (cs ov : Nat) (g : List α) (hg : g ≠ [])
    (p : List α) (hlen : p.length + g.length < cs) :
    chunkLinesAux cs ov g [] p = [p ++ g] := by
  cases g with
  | nil => exact absurd rfl hg
  | cons l g' =>
    simp only [List.length_cons] at hlen
    have hlt : ¬ cs ≤ (p ++ [l]).length := by
      simp only [List.length_append, List.length_cons, List.length_nil]
      omega
    rw [chunkLinesAux_cons_noflush cs ov l g' [] p
      (by simp only [List.isEmpty_nil, if_true]; exact hlt)]
    simp only [List.isEmpty_nil, if_true]
    rw [chunkLinesAux_final_core cs ov g' (p ++ [l]) p (by simp)
      (by simp only [List.length_append, List.length_cons, List.length_nil]; omega)]
    simp only [List.append_assoc, List.singleton_append]

theorem range'_ne_nil (s n : Nat) (h : 0 < n) : List.range' s n ≠ [] := by
  intro he
  have := congrArg List.length he
  simp only [List.length_range', List.length_nil] at this
  omega

theorem range'_drop (s n a : Nat) (h : a ≤ n) :
    (List.range' s n).drop a = List.range' (s + a) (n - a) := by
  have h2 := List.range'_append s a (n - a) 1
  simp only [one_mul] at h2
  rw [Nat.sub_add_cancel h] at h2
  rw [← h2, List.drop_left' (by simp [List.length_range'])]

/-- The complete run of `ChunkByLines` on 2500 lines with chunk size 1000
and overlap 50, derived symbolically from the segment lemmas: chunk 1 holds
lines 0-999, chunk 2 holds lines 950-1949 (1000 lines: the 50 overlap lines
950-999 plus 950 new lines), chunk 3 holds lines 1900-2499 (600 lines: the
50 overlap lines 1900-1949 plus the 550 remaining lines). -/
theorem chunkByLines_range2500 :
    chunkByLines 1000 50 (List.range 2500) =
      [List.range' 0 1000, List.range' 950 1000, List.range' 1900 600] := by
  have hr : List.range 2500 = List.range' 0 1000 ++ List.range' 1000 1500 := by
    rw [List.range_eq_range']
    have h2 := List.range'_append 0 1000 1500 1
    simp only [one_mul, zero_add] at h2
    norm_num at h2
    rw [h2]
  have hsplit2 : List.range' 1000 1500 = List.range' 1000 950 ++ List.range' 1950 550 := by
    have h2 := List.range'_append 1000 950 550 1
    norm_num at h2
    rw [h2]
  have hjoin2 : List.range' 950 50 ++ List.range' 1000 950 = List.range' 950 1000 := by
    have h2 := List.range'_append 950 50 950 1
    norm_num at h2
    exact h2
  have hjoin3 : List.range' 1900 50 ++ List.range' 1950 550 = List.range' 1900 600 := by
    have h2 := List.range'_append 1900 50 550 1
    norm_num at h2
    exact h2
  rw [chunkByLines, hr]
  rw [chunkLinesAux_flush_seed 1000 50 (List.range' 0 1000) (range'_ne_nil 0 1000 (by norm_num))
    (List.range' 1000 1500) [] (by simp [List.length_range'])]
  rw [if_pos (by norm_num : (0:Nat) < 50 ∧ (50:Nat) < 1000)]
  rw [List.nil_append, range'_drop 0 1000 950 (by norm_num)]
  norm_num
  rw [hsplit2]
  rw [chunkLinesAux_flush_seed 1000 50 (List.range' 1000 950) (range'_ne_nil 1000 950 (by norm_num))
    (List.range' 1950 550) (List.range' 950 50) (by simp [List.length_range'])]
  rw [if_pos (by norm_num : (0:Nat) < 50 ∧ (50:Nat) < 1000)]
  rw [hjoin2, range'_drop 950 1000 950 (by norm_num)]
  norm_num
  rw [chunkLinesAux_final_seed 1000 50 (List.range' 1950 550)
    (range'_ne_nil 1950 550 (by norm_num)) (List.range' 1900 50)
    (by simp [List.length_range'])]
  rw [hjoin3]

theorem chunkLinesScanAux_eq {α : Type} (cs ov : Nat) (lines : List α) :
    ∀ (err : Bool) (cur prevOv : List α),
      chunkLinesScanAux cs ov lines err cur prevOv =
        (chunkLinesAux cs ov lines cur prevOv, err) := by
  induction lines with
  | nil =>
    intro err cur prevOv
    simp [chunkLinesScanAux, chunkLinesAux]
  | cons l rest ih =>
    intro err cur prevOv
    simp only [chunkLinesScanAux, chunkLinesAux]
    by_cases h : cs ≤ ((if cur.isEmpty then prevOv else cur) ++ [l]).length
    · simp only [if_pos h, ih]
    · simp only [if_neg h, ih]

/-! ### Claim theorems: lines mode -/

/-- **C6.** With strategy `lines` and overlap 0, the concatenation of the
emitted chunks' line sequences, in chunk order, is exactly the original line
sequence: every source line appears exactly once and in order, for every
chunk size. -/
theorem c6_lines_concat {α : Type} (cs : Nat) (lines : List α) :
    (chunkByLines cs 0 lines).flatten = lines := by
  simpa using chunkLinesAux_join_ov0 cs lines []

/-- **C3, counterexample.** On 2500 lines with chunk size 1000 and overlap
50, the second chunk holds 1000 lines, not the 1050 lines the claim states:
the 50 carried-over overlap lines count toward the 1000-line chunk size, so
only 950 new lines are added. -/
theorem c3_cex :
    ((chunkByLines 1000 50 (List.range 2500)).getD 1 []).length = 1000 ∧
      ((chunkByLines 1000 50 (List.range 2500)).getD 1 []).length ≠ 1050 := by
  rw [chunkByLines_range2500]
  simp [List.length_range']

/-- **C3, amended.** On 2500 lines (modelled as line indices 0..2499) with
chunk size 1000 and overlap 50, exactly 3 chunks are produced: chunk 1 holds
lines 0-999, chunk 2 starts with the 50 overlap lines 950-999 repeated and
holds 1000 lines in total (50 overlap lines plus 950 new lines, up to line
1949), and chunk 3 holds the remainder (lines 1900-2499, i.e. the 50 overlap
lines 1900-1949 plus the remaining 550 lines). -/
theorem c3_amended :
    chunkByLines 1000 50 (List.range 2500) =
      [List.range' 0 1000, List.range' 950 1000, List.range' 1900 600] :=
  chunkByLines_range2500

/-- **C4, counterexample.** Lines mode, chunk size 2, overlap 0, a scanner
that delivers one line `7` and then fails with a scan error.  No chunk was
full before the error, so the claim requires that no chunk be written; but
the run writes the partially filled buffer `[7]` as a final chunk (the final
flush of `ChunkByLines` runs before `scanner.Err()` is consulted) and then
reports the error. -/
theorem c4_cex :
    chunkLinesScan 2 0 [7] true = ([[7]], true) ∧
      ([[7]] : List (List Nat)) ≠ [] := by
  constructor
  · rfl
  · simp

/-- **C4, amended.** On a mid-stream scan error, no further lines are read
and the error is reported, but the lines buffered when the scanner stops are
still flushed as a final (possibly partial) chunk before the error is
returned: the chunks written are exactly those of an error-free run on the
lines delivered before the failure, and the reported error flag is the
scanner's. -/
theorem c4_amended {α : Type} (cs ov : Nat) (lines : List α) (err : Bool) :
    chunkLinesScan cs ov lines err = (chunkByLines cs ov lines, err) :=
  chunkLinesScanAux_eq cs ov lines err [] []

theorem chunkLinesAux_head_take {α : Type} (cs ov : Nat) (lines : List α) :
    ∀ (cur prevOv c : List α),
      (chunkLinesAux cs ov lines cur prevOv).head? = some c →
      c.take (if cur.isEmpty then prevOv else cur).length =
        (if cur.isEmpty then prevOv else cur) := by
  induction lines with
  | nil =>
    intro cur prevOv c hc
    by_cases h : cur.isEmpty = true
    · simp [chunkLinesAux, h] at hc
    · simp only [chunkLinesAux, h, Bool.false_eq_true, if_false, List.head?_cons,
        Option.some.injEq] at hc
      subst hc
      simp [h, List.take_length]
  | cons l rest ih =>
    intro cur prevOv c hc
    by_cases h : cs ≤ ((if cur.isEmpty then prevOv else cur) ++ [l]).length
    · rw [chunkLinesAux_cons_flush cs ov l rest cur prevOv h] at hc
      simp only [List.head?_cons, Option.some.injEq] at hc
      subst hc
      exact List.take_left _ _
    · rw [chunkLinesAux_cons_noflush cs ov l rest cur prevOv h] at hc
      have h1 := ih ((if cur.isEmpty then prevOv else cur) ++ [l]) prevOv c hc
      have h2 : (((if cur.isEmpty then prevOv else cur) ++ [l]).isEmpty) = false := by
        simp
      rw [h2] at h1
      simp only [Bool.false_eq_true, if_false] at h1
      have h3 : c.take (if cur.isEmpty then prevOv else cur).length =
          (c.take ((if cur.isEmpty then prevOv else cur) ++ [l]).length).take
            (if cur.isEmpty then prevOv else cur).length := by
        rw [List.take_take]
        congr 1
        simp only [List.length_append, List.length_cons, List.length_nil]
        omega
      rw [h3, h1]
      exact List.take_left _ _


theorem chunkLinesAux_cons_flush' {α : Type} (cs ov : Nat) (l : α)
    (rest cur prevOv b : List α) (hb : (if cur.isEmpty then prevOv else cur) = b)
    (h : cs ≤ (b ++ [l]).length) :
    chunkLinesAux cs ov (l :: rest) cur prevOv =
      (b ++ [l]) ::
        chunkLinesAux cs ov rest []
          (if 0 < ov ∧ ov < (b ++ [l]).length then
            (b ++ [l]).drop ((b ++ [l]).length - ov)
          else []) := by
  subst hb
  exact chunkLinesAux_cons_flush cs ov l rest cur prevOv h

theorem chunkLinesAux_cons_noflush' {α : Type} (cs ov : Nat) (l : α)
    (rest cur prevOv b : List α) (hb : (if cur.isEmpty then prevOv else cur) = b)
    (h : ¬ cs ≤ (b ++ [l]).length) :
    chunkLinesAux cs ov (l :: rest) cur prevOv =
      chunkLinesAux cs ov rest (b ++ [l]) prevOv := by
  subst hb
  exact chunkLinesAux_cons_noflush cs ov l rest cur prevOv h

theorem chunkLinesAux_chain {α : Type} (cs ov : Nat) (h1 : 0 < ov) (h2 : ov < cs)
    (lines : List α) :
    ∀ (cur prevOv : List α), cur.length < cs → prevOv.length ≤ ov →
      List.Chain' (fun a b => a.drop (a.length - ov) = b.take ov)
        (chunkLinesAux cs ov lines cur prevOv) := by
  induction lines with
  | nil =>
    intro cur prevOv _ _
    by_cases h : cur.isEmpty = true
    · simp [chunkLinesAux, h]
    · simp [chunkLinesAux, h]
  | cons l rest ih =>
    intro cur prevOv hcl hpl
    obtain ⟨b, hb⟩ : ∃ b, (if cur.isEmpty then prevOv else cur) = b := ⟨_, rfl⟩
    have hblen : b.length < cs := by
      rw [← hb]
      by_cases h : cur.isEmpty = true
      · simp only [h, if_true]; omega
      · simp only [h, Bool.false_eq_true, if_false]; exact hcl
    by_cases h : cs ≤ (b ++ [l]).length
    · rw [chunkLinesAux_cons_flush' cs ov l rest cur prevOv b hb h]
      have hl1 : (b ++ [l]).length = cs := by
        simp only [List.length_append, List.length_cons, List.length_nil] at h ⊢
        omega
      have hcond : 0 < ov ∧ ov < (b ++ [l]).length := ⟨h1, by omega⟩
      rw [if_pos hcond]
      have hovlen : ((b ++ [l]).drop ((b ++ [l]).length - ov)).length = ov := by
        rw [List.length_drop]
        omega
      rw [List.chain'_cons']
      constructor
      · intro y hy
        rw [Option.mem_def] at hy
        have h4 := chunkLinesAux_head_take cs ov rest []
          ((b ++ [l]).drop ((b ++ [l]).length - ov)) y hy
        simp only [List.isEmpty_nil, if_true] at h4
        rw [hovlen] at h4
        rw [hl1] at h4
        rw [hl1]
        exact h4.symm
      · exact ih [] ((b ++ [l]).drop ((b ++ [l]).length - ov))
          (by simp only [List.length_nil]; omega) (le_of_eq hovlen)
    · rw [chunkLinesAux_cons_noflush' cs ov l rest cur prevOv b hb h]
      exact ih (b ++ [l]) prevOv
        (by simp only [List.length_append, List.length_cons, List.length_nil] at h ⊢; omega)
        hpl

theorem chunkLinesAux_sizes {α : Type} (cs ov : Nat) (h2 : ov < cs) (lines : List α) :
    ∀ (cur prevOv : List α), cur.length < cs → prevOv.length ≤ ov →
      ∀ c ∈ (chunkLinesAux cs ov lines cur prevOv).dropLast, c.length = cs := by
  induction lines with
  | nil =>
    intro cur prevOv _ _ c hc
    by_cases h : cur.isEmpty = true
    · simp [chunkLinesAux, h] at hc
    · simp [chunkLinesAux, h] at hc
  | cons l rest ih =>
    intro cur prevOv hcl hpl
    obtain ⟨b, hb⟩ : ∃ b, (if cur.isEmpty then prevOv else cur) = b := ⟨_, rfl⟩
    have hblen : b.length < cs := by
      rw [← hb]
      by_cases h : cur.isEmpty = true
      · simp only [h, if_true]; omega
      · simp only [h, Bool.false_eq_true, if_false]; exact hcl
    by_cases h : cs ≤ (b ++ [l]).length
    · rw [chunkLinesAux_cons_flush' cs ov l rest cur prevOv b hb h]
      have hl1 : (b ++ [l]).length = cs := by
        simp only [List.length_append, List.length_cons, List.length_nil] at h ⊢
        omega
      have hovlen :
          (if 0 < ov ∧ ov < (b ++ [l]).length then
            (b ++ [l]).drop ((b ++ [l]).length - ov)
          else []).length ≤ ov := by
        by_cases hcond : 0 < ov ∧ ov < (b ++ [l]).length
        · rw [if_pos hcond, List.length_drop]; omega
        · rw [if_neg hcond]; simp
      intro c hc
      rcases htl : chunkLinesAux cs ov rest []
        (if 0 < ov ∧ ov < (b ++ [l]).length then
          (b ++ [l]).drop ((b ++ [l]).length - ov)
        else []) with _ | ⟨r, rs⟩
      · rw [htl] at hc
        simp at hc
      · rw [htl] at hc
        rw [List.dropLast_cons₂] at hc
        rcases List.mem_cons.mp hc with hceq | hcmem
        · rw [hceq, hl1]
        · have h5 := ih []
            (if 0 < ov ∧ ov < (b ++ [l]).length then
              (b ++ [l]).drop ((b ++ [l]).length - ov)
            else []) (by simp only [List.length_nil]; omega) hovlen c
          rw [htl] at h5
          exact h5 hcmem
    · rw [chunkLinesAux_cons_noflush' cs ov l rest cur prevOv b hb h]
      exact ih (b ++ [l]) prevOv
        (by simp only [List.length_append, List.length_cons, List.length_nil] at h ⊢; omega)
        hpl

/-- **C7.** In lines mode with `0 < overlap < chunk size`, for every pair of
consecutively emitted chunks the last `overlap` lines of the earlier chunk
equal the first `overlap` lines of the later chunk. -/
theorem c7_overlap_chain {α : Type} (cs ov : Nat) (lines : List α)
    (h1 : 0 < ov) (h2 : ov < cs) :
    List.Chain' (fun a b => a.drop (a.length - ov) = b.take ov)
      (chunkByLines cs ov lines) :=
  chunkLinesAux_chain cs ov h1 h2 lines [] []
    (by simp only [List.length_nil]; omega) (by simp)

/-- Witness for C7 at a concrete input: 7 lines, chunk size 3, overlap 1. -/
theorem c7_overlap_chain_w :
    List.Chain' (fun a b => a.drop (a.length - 1) = b.take 1)
      (chunkByLines 3 1 (List.range 7)) :=
  c7_overlap_chain 3 1 (List.range 7) (by decide) (by decide)

/-- **C10.** In lines mode with `overlap < chunk size`, every emitted chunk
except possibly the last holds exactly `chunk size` lines (overlap lines
carried over count toward that size). -/
theorem c10_full_chunks {α : Type} (cs ov : Nat) (lines : List α) (h : ov < cs) :
    ∀ c ∈ (chunkByLines cs ov lines).dropLast, c.length = cs :=
  chunkLinesAux_sizes cs ov h lines [] []
    (by simp only [List.length_nil]; omega) (by simp)

/-- Witness for C10 at a concrete input: 7 lines, chunk size 3, overlap 1;
the first of the three emitted chunks is not last and has exactly 3 lines. -/
theorem c10_full_chunks_w :
    ((chunkByLines 3 1 (List.range 7)).getD 0 []).length = 3 :=
  c10_full_chunks 3 1 (List.range 7) (by decide)
    ((chunkByLines 3 1 (List.range 7)).getD 0 []) (by decide)

/-! ### Helper lemmas about the character chunker -/

theorem snapScan_bounds (t : List Char) (lo : Nat) :
    ∀ i j, snapScan t lo i = some j → lo < j ∧ j ≤ i := by
  intro i
  induction i with
  | zero => intro j h; simp [snapScan] at h
  | succ i ih =>
    intro j h
    rw [snapScan] at h
    by_cases h1 : lo < i + 1
    · rw [if_pos h1] at h
      by_cases h2 : isWS (t.getD (i + 1) 'x') = true
      · rw [if_pos h2] at h
        injection h with h3
        omega
      · rw [if_neg h2] at h
        obtain ⟨ha, hb⟩ := ih j h
        exact ⟨ha, by omega⟩
    · rw [if_neg h1] at h
      cases h

theorem snapScan_ws (t : List Char) (lo : Nat) :
    ∀ i j, snapScan t lo i = some j → isWS (t.getD j 'x') = true := by
  intro i
  induction i with
  | zero => intro j h; simp [snapScan] at h
  | succ i ih =>
    intro j h
    rw [snapScan] at h
    by_cases h1 : lo < i + 1
    · rw [if_pos h1] at h
      by_cases h2 : isWS (t.getD (i + 1) 'x') = true
      · rw [if_pos h2] at h
        injection h with h3
        rw [← h3]
        exact h2
      · rw [if_neg h2] at h
        exact ih j h
    · rw [if_neg h1] at h
      cases h

theorem snapScan_none (t : List Char) (lo : Nat) :
    ∀ i, snapScan t lo i = none →
      ∀ j, lo < j → j ≤ i → isWS (t.getD j 'x') = false := by
  intro i
  induction i with
  | zero =>
    intro _ j hj1 hj2
    exact absurd (Nat.lt_of_lt_of_le hj1 hj2) (Nat.not_lt_zero lo)
  | succ i ih =>
    intro h j hj1 hj2
    rw [snapScan] at h
    by_cases h1 : lo < i + 1
    · rw [if_pos h1] at h
      by_cases h2 : isWS (t.getD (i + 1) 'x') = true
      · rw [if_pos h2] at h
        cases h
      · rw [if_neg h2] at h
        by_cases hj : j = i + 1
        · rw [hj]
          cases hb : isWS (t.getD (i + 1) 'x') with
          | false => rfl
          | true => exact absurd hb h2
        · exact ih h j hj1 (by omega)
    · exact absurd (Nat.lt_of_lt_of_le hj1 hj2) (by omega)

theorem charEnd_ge (t : List Char) (cs s : Nat) (h : s < t.length) :
    s ≤ charEnd t cs s := by
  rw [charEnd]
  by_cases h0 : min (s + cs) t.length < t.length
  · rw [if_pos h0]
    rcases hsnap : snapScan t (max s (min (s + cs) t.length - 100)) (min (s + cs) t.length)
      with _ | j
    · simp only [Option.getD_none]
      omega
    · simp only [Option.getD_some]
      obtain ⟨ha, _⟩ := snapScan_bounds t _ _ j hsnap
      omega
  · rw [if_neg h0]
    omega

theorem charEnd_le (t : List Char) (cs s : Nat) : charEnd t cs s ≤ t.length := by
  rw [charEnd]
  by_cases h0 : min (s + cs) t.length < t.length
  · rw [if_pos h0]
    rcases hsnap : snapScan t (max s (min (s + cs) t.length - 100)) (min (s + cs) t.length)
      with _ | j
    · simp only [Option.getD_none]
      omega
    · simp only [Option.getD_some]
      obtain ⟨_, hb⟩ := snapScan_bounds t _ _ j hsnap
      omega
  · rw [if_neg h0]
    omega

theorem chunkByCharsFuel_flatten (t : List Char) (cs : Nat) :
    ∀ (fuel num s : Nat) (chunks : List TextChunk),
      chunkByCharsFuel t cs 0 fuel num s = some chunks →
      (chunks.map TextChunk.content).flatten = t.drop s := by
  intro fuel
  induction fuel with
  | zero => intro num s chunks h; cases h
  | succ fuel ih =>
    intro num s chunks h
    by_cases hs : s < t.length
    · rw [chunkByCharsFuel, if_pos hs] at h
      have hadv : advance 0 (charEnd t cs s) = charEnd t cs s := by
        simp [advance]
      rcases hrec : chunkByCharsFuel t cs 0 fuel (num + 1) (advance 0 (charEnd t cs s))
        with _ | rest
      · rw [hrec] at h
        cases h
      · rw [hrec] at h
        injection h with h
        subst h
        rw [hadv] at hrec
        simp only [List.map_cons, List.flatten_cons]
        rw [ih (num + 1) (charEnd t cs s) rest hrec]
        have hse : s ≤ charEnd t cs s := charEnd_ge t cs s hs
        have hd : t.drop (charEnd t cs s) = (t.drop s).drop (charEnd t cs s - s) := by
          rw [List.drop_drop]
          congr 1
          omega
        rw [hd, List.take_append_drop]
    · rw [chunkByCharsFuel, if_neg hs] at h
      injection h with h
      subst h
      simp [List.drop_eq_nil_of_le (le_of_not_lt hs)]

/-! ### Claim theorems: character mode -/

/-- **C9.** With strategy `chars` and overlap 0, whenever the loop
completes (any fuel bound that suffices), the concatenation of the emitted
chunk contents in chunk order is exactly the original text: a whitespace
character dropped from a chunk by boundary snapping becomes the first
character of the next chunk, so nothing is lost or duplicated. -/
theorem c9_chars_concat (t : List Char) (cs fuel : Nat) (chunks : List TextChunk)
    (h : chunkByCharsFuel t cs 0 fuel 1 0 = some chunks) :
    (chunks.map TextChunk.content).flatten = t := by
  simpa using chunkByCharsFuel_flatten t cs fuel 1 0 chunks h

/-- Witness for C9 at a concrete input: "ab cd", chunk size 3, overlap 0;
the run completes with chunks "ab" and " cd", whose concatenation is the
original text. -/
theorem c9_chars_concat_w :
    (([⟨1, 0, 2, "ab".toList⟩, ⟨2, 2, 5, " cd".toList⟩] : List TextChunk).map
      TextChunk.content).flatten = "ab cd".toList :=
  c9_chars_concat "ab cd".toList 3 10
    [⟨1, 0, 2, "ab".toList⟩, ⟨2, 2, 5, " cd".toList⟩] (by decide)

/-- **C2, counterexample.** On "a b c d e" with strategy `chars`, size 5,
overlap 0, the chunker emits two chunks, but their contents are "a b c" and
" d e" (the second begins with the space dropped by boundary snapping), not
"a b c" and "d e" as the claim states. -/
theorem c2_cex :
    (chunkByCharsFuel "a b c d e".toList 5 0 10 1 0).map (List.map TextChunk.content) =
      some ["a b c".toList, " d e".toList] ∧
    " d e".toList ≠ "d e".toList := by
  constructor
  · decide
  · decide

/-- **C2, amended.** On "a b c d e" (9 characters) with strategy `chars`,
chunk size 5 and overlap 0, exactly two chunks are emitted: chunk 1 is
"a b c" (range 0-5, the snapped boundary landing on the space at index 5)
and chunk 2 is " d e" (range 5-9, beginning with that space). -/
theorem c2_amended :
    chunkByCharsFuel "a b c d e".toList 5 0 10 1 0 =
      some [⟨1, 0, 5, "a b c".toList⟩, ⟨2, 5, 9, " d e".toList⟩] := by
  decide

/-- **C8, amended.** A character-mode chunk boundary `endPos` interior to
the text that falls on a non-whitespace character (i.e. a boundary that
splits a run of non-whitespace) implies the whole backward-scan window is
non-whitespace: every position `j` with `startPos < j`, `endPos < j + 100`
and `j ≤ endPos` holds a non-whitespace character.  Hence a split run is
longer than the effective lookback window `min 100 (endPos - startPos)`;
only when the chunk spans at least 100 characters does this mean the run
exceeds 100 characters. -/
theorem c8_amended (t : List Char) (cs ov : Nat) :
    ∀ (fuel num s : Nat) (chunks : List TextChunk),
      chunkByCharsFuel t cs ov fuel num s = some chunks →
      ∀ c ∈ chunks, c.endPos < t.length → isWS (t.getD c.endPos 'x') = false →
        ∀ j, c.startPos < j → c.endPos < j + 100 → j ≤ c.endPos →
          isWS (t.getD j 'x') = false := by
  intro fuel
  induction fuel with
  | zero => intro num s chunks h; cases h
  | succ fuel ih =>
    intro num s chunks h
    by_cases hs : s < t.length
    · rw [chunkByCharsFuel, if_pos hs] at h
      rcases hrec : chunkByCharsFuel t cs ov fuel (num + 1) (advance ov (charEnd t cs s))
        with _ | rest
      · rw [hrec] at h
        cases h
      · rw [hrec] at h
        injection h with h
        subst h
        intro c hc
        rcases List.mem_cons.mp hc with hceq | hcmem
        · subst hceq
          dsimp only
          intro he hws j hj1 hj2 hj3
          by_cases h0 : min (s + cs) t.length < t.length
          · rcases hsnap : snapScan t (max s (min (s + cs) t.length - 100))
              (min (s + cs) t.length) with _ | j'
            · have hce : charEnd t cs s = min (s + cs) t.length := by
                rw [charEnd, if_pos h0, hsnap, Option.getD_none]
              rw [hce] at hj2 hj3
              exact snapScan_none t _ _ hsnap j (by omega) (by omega)
            · have hce : charEnd t cs s = j' := by
                rw [charEnd, if_pos h0, hsnap, Option.getD_some]
              have hwst := snapScan_ws t _ _ j' hsnap
              rw [← hce] at hwst
              rw [hws] at hwst
              cases hwst
          · have hce : charEnd t cs s = min (s + cs) t.length := by
              rw [charEnd, if_neg h0]
            rw [hce] at he
            omega
        · exact ih (num + 1) (advance ov (charEnd t cs s)) rest hrec c hcmem
    · rw [chunkByCharsFuel, if_neg hs] at h
      injection h with h
      subst h
      intro c hc
      cases hc

/-- Witness for the amended C8: on "abcdefgh" with chunk size 3, overlap 0,
the first chunk's boundary (position 3) splits the run and the window
position 3 is indeed non-whitespace. -/
theorem c8_amended_w : isWS (("abcdefgh".toList).getD 3 'x') = false :=
  c8_amended "abcdefgh".toList 3 0 5 1 0
    [⟨1, 0, 3, "abc".toList⟩, ⟨2, 3, 6, "def".toList⟩, ⟨3, 6, 8, "gh".toList⟩]
    (by decide) ⟨1, 0, 3, "abc".toList⟩ (by decide) (by decide) (by decide)
    3 (by decide) (by decide) (by decide)

/-- **C8, counterexample.** On "abcdefgh" (a single run of 8 non-whitespace
characters) with chunk size 5 and overlap 0, the chunker cuts at position 5,
splitting the run between 'e' and 'f', although the run containing the
boundary has length 8, far below the 100-character lookback window: the
backward scan is also bounded by the chunk start, so runs merely longer than
the chunk size get split. -/
theorem c8_cex :
    (chunkByCharsFuel "abcdefgh".toList 5 0 10 1 0).map
        (List.map (fun c => (c.startPos, c.endPos, c.content))) =
      some [(0, 5, "abcde".toList), (5, 8, "fgh".toList)] ∧
    isWS (("abcdefgh".toList).getD 4 'x') = false ∧
    isWS (("abcdefgh".toList).getD 5 'x') = false ∧
    runLenAt "abcdefgh".toList 5 = 8 ∧
    ¬ 100 < runLenAt "abcdefgh".toList 5 := by
  exact ⟨by decide, by decide, by decide, by decide, by decide⟩

theorem chunkByCharsFuel_diverge (t : List Char) (cs ov : Nat)
    (h1 : 0 < ov) (h2 : ov ≤ t.length) :
    ∀ (fuel num s : Nat), s < t.length → chunkByCharsFuel t cs ov fuel num s = none := by
  intro fuel
  induction fuel with
  | zero => intro num s _; rfl
  | succ fuel ih =>
    intro num s hs
    rw [chunkByCharsFuel, if_pos hs]
    have hnext : advance ov (charEnd t cs s) < t.length := by
      have he_le := charEnd_le t cs s
      rw [advance, if_pos h1]
      by_cases hlt : charEnd t cs s < ov
      · rw [if_pos hlt]
        omega
      · rw [if_neg hlt]
        omega
    rw [ih (num + 1) (advance ov (charEnd t cs s)) hnext]

theorem chunkByToksFuel_diverge (toks : List (List Char)) (cs ov : Nat)
    (h1 : 0 < ov) (h2 : ov ≤ toks.length) :
    ∀ (fuel num s : Nat), s < toks.length → chunkByToksFuel toks cs ov fuel num s = none := by
  intro fuel
  induction fuel with
  | zero => intro num s _; rfl
  | succ fuel ih =>
    intro num s hs
    rw [chunkByToksFuel, if_pos hs]
    have hnext : advance ov (min (s + cs) toks.length) < toks.length := by
      rw [advance, if_pos h1]
      by_cases hlt : min (s + cs) toks.length < ov
      · rw [if_pos hlt]
        omega
      · rw [if_neg hlt]
        omega
    rw [ih (num + 1) (advance ov (min (s + cs) toks.length)) hnext]

/-- **C1.** The claim that the character- and token-mode loops terminate
whenever `overlap < chunk size` is false: with `0 < overlap ≤ length`, the
advance `start = end - overlap` always leaves `start < length` (the clamp
only guards `start < 0`), so the loop condition never fails and the run
never completes, for every fuel bound — regardless of the chunk size, in
particular for `overlap < chunk size`. -/
theorem c1_nonterm :
    (∀ (t : List Char) (cs ov : Nat), 0 < ov → ov ≤ t.length →
      ∀ (fuel num s : Nat), s < t.length →
        chunkByCharsFuel t cs ov fuel num s = none) ∧
    (∀ (toks : List (List Char)) (cs ov : Nat), 0 < ov → ov ≤ toks.length →
      ∀ (fuel num s : Nat), s < toks.length →
        chunkByToksFuel toks cs ov fuel num s = none) :=
  ⟨fun t cs ov h1 h2 => chunkByCharsFuel_diverge t cs ov h1 h2,
   fun toks cs ov h1 h2 => chunkByToksFuel_diverge toks cs ov h1 h2⟩

/-- Witness for C1 at concrete failing inputs: chars mode on "ab" with
size 5 and overlap 2, and tokens mode on the three tokens of "a b c" with
size 5 and overlap 2 (both with overlap < chunk size), never finish. -/
theorem c1_nonterm_w :
    chunkByCharsFuel "ab".toList 5 2 7 1 0 = none ∧
    chunkByToksFuel (tokenize "a b c".toList) 5 2 7 1 0 = none :=
  ⟨c1_nonterm.1 "ab".toList 5 2 (by decide) (by decide) 7 1 0 (by decide),
   c1_nonterm.2 (tokenize "a b c".toList) 5 2 (by decide) (by decide) 7 1 0 (by decide)⟩

/-! ### Helper lemmas about the tokenizer and token chunker -/

theorem tokAux_plain (w : List Char)
    (hw : ∀ c ∈ w, isWS c = false ∧ isPunct c = false) :
    ∀ cur : List Char, tokAux w cur = if (cur ++ w).isEmpty then [] else [cur ++ w] := by
  induction w with
  | nil => intro cur; simp [tokAux]
  | cons c w' ih =>
    intro cur
    obtain ⟨h1, h2⟩ := hw c (List.mem_cons_self c w')
    simp only [tokAux, h1, h2, Bool.false_eq_true, if_false]
    rw [ih (fun d hd => hw d (List.mem_cons_of_mem c hd)) (cur ++ [c])]
    simp [List.append_assoc]

theorem tokenize_self_of_plain (w : List Char) (hne : w ≠ [])
    (hw : ∀ c ∈ w, isWS c = false ∧ isPunct c = false) : tokenize w = [w] := by
  rw [tokenize, tokAux_plain w hw []]
  simp [List.isEmpty_iff, hne]

theorem tokAux_mem_good (s : List Char) :
    ∀ cur : List Char, (∀ c ∈ cur, isWS c = false ∧ isPunct c = false) →
      ∀ w ∈ tokAux s cur, tokenize w = [w] := by
  induction s with
  | nil =>
    intro cur hcur w hw
    by_cases h : cur.isEmpty = true
    · simp [tokAux, h] at hw
    · simp only [tokAux, h, Bool.false_eq_true, if_false, List.mem_singleton] at hw
      subst hw
      exact tokenize_self_of_plain w (by simpa [List.isEmpty_iff] using h) hcur
  | cons c rest ih =>
    intro cur hcur w hw
    simp only [tokAux] at hw
    by_cases h1 : isWS c = true
    · rw [if_pos h1] at hw
      rcases List.mem_append.mp hw with hfl | hrest
      · by_cases hc : cur.isEmpty = true
        · simp [hc] at hfl
        · simp only [hc, Bool.false_eq_true, if_false, List.mem_singleton] at hfl
          subst hfl
          exact tokenize_self_of_plain w (by simpa [List.isEmpty_iff] using hc) hcur
      · exact ih [] (by simp) w hrest
    · rw [if_neg h1] at hw
      by_cases h2 : isPunct c = true
      · rw [if_pos h2] at hw
        rcases List.mem_append.mp hw with hfl | hrest
        · by_cases hc : cur.isEmpty = true
          · simp [hc] at hfl
          · simp only [hc, Bool.false_eq_true, if_false, List.mem_singleton] at hfl
            subst hfl
            exact tokenize_self_of_plain w (by simpa [List.isEmpty_iff] using hc) hcur
        · rcases List.mem_cons.mp hrest with hw1 | hw2
          · subst hw1
            rw [tokenize]
            simp [tokAux, h1, h2]
          · exact ih [] (by simp) w hw2
      · rw [if_neg h2] at hw
        refine ih (cur ++ [c]) ?_ w hw
        intro d hd
        rcases List.mem_append.mp hd with hdc | hdc
        · exact hcur d hdc
        · rw [List.mem_singleton.mp hdc]
          constructor
          · cases hb : isWS c with
            | false => rfl
            | true => exact absurd hb h1
          · cases hb : isPunct c with
            | false => rfl
            | true => exact absurd hb h2

theorem tokAux_append_space (v : List Char) :
    ∀ (u cur : List Char), tokAux (u ++ ' ' :: v) cur = tokAux u cur ++ tokAux v [] := by
  intro u
  induction u with
  | nil =>
    intro cur
    simp only [List.nil_append, tokAux]
    rw [if_pos (show isWS ' ' = true from rfl)]
  | cons c u' ih =>
    intro cur
    simp only [List.cons_append, tokAux, List.append_eq]
    by_cases h1 : isWS c = true
    · rw [if_pos h1, if_pos h1, ih]
      simp [List.append_assoc]
    · rw [if_neg h1, if_neg h1]
      by_cases h2 : isPunct c = true
      · rw [if_pos h2, if_pos h2, ih]
        simp [List.append_assoc]
      · rw [if_neg h2, if_neg h2, ih]

theorem tokenize_joinSp :
    ∀ ws : List (List Char), (∀ w ∈ ws, tokenize w = [w]) →
      tokenize (joinSp ws) = ws := by
  intro ws
  induction ws with
  | nil => intro _; rfl
  | cons w ws' ih =>
    intro h
    cases ws' with
    | nil => exact h w (by simp)
    | cons w2 ws'' =>
      have hj : joinSp (w :: w2 :: ws'') = w ++ ' ' :: joinSp (w2 :: ws'') := rfl
      rw [hj, tokenize, tokAux_append_space (joinSp (w2 :: ws'')) w []]
      rw [show tokAux w [] = tokenize w from rfl]
      rw [show tokAux (joinSp (w2 :: ws'')) [] = tokenize (joinSp (w2 :: ws'')) from rfl]
      rw [h w (by simp), ih (fun u hu => h u (List.mem_cons_of_mem w hu))]
      rfl

theorem chunkByToksFuel_some_nil (toks : List (List Char)) (cs ov : Nat) :
    ∀ (fuel num s : Nat), chunkByToksFuel toks cs ov fuel num s = some [] →
      toks.length ≤ s := by
  intro fuel num s h
  cases fuel with
  | zero => cases h
  | succ fuel =>
    by_cases hs : s < toks.length
    · rw [chunkByToksFuel, if_pos hs] at h
      rcases hrec : chunkByToksFuel toks cs ov fuel (num + 1)
        (advance ov (min (s + cs) toks.length)) with _ | rest
      · rw [hrec] at h
        cases h
      · rw [hrec] at h
        simp at h
    · omega

theorem chunkByToksFuel_reassemble (toks : List (List Char)) (cs : Nat)
    (hgood : ∀ w ∈ toks, tokenize w = [w]) :
    ∀ (fuel num s : Nat) (chunks : List TextChunk),
      chunkByToksFuel toks cs 0 fuel num s = some chunks →
      tokenize (joinSp (chunks.map TextChunk.content)) = toks.drop s := by
  intro fuel
  induction fuel with
  | zero => intro num s chunks h; cases h
  | succ fuel ih =>
    intro num s chunks h
    by_cases hs : s < toks.length
    · rw [chunkByToksFuel, if_pos hs] at h
      have hadv : advance 0 (min (s + cs) toks.length) = min (s + cs) toks.length := by
        simp [advance]
      rcases hrec : chunkByToksFuel toks cs 0 fuel (num + 1)
        (advance 0 (min (s + cs) toks.length)) with _ | rest
      · rw [hrec] at h
        cases h
      · rw [hrec] at h
        injection h with h
        subst h
        rw [hadv] at hrec
        have hgg : ∀ w ∈ (toks.drop s).take (min (s + cs) toks.length - s),
            tokenize w = [w] :=
          fun w hw => hgood w (List.mem_of_mem_drop (List.mem_of_mem_take hw))
        cases rest with
        | nil =>
          have hend := chunkByToksFuel_some_nil toks cs 0 fuel (num + 1)
            (min (s + cs) toks.length) hrec
          simp only [List.map_cons, List.map_nil]
          rw [show joinSp [joinSp ((toks.drop s).take (min (s + cs) toks.length - s))] =
            joinSp ((toks.drop s).take (min (s + cs) toks.length - s)) from rfl]
          rw [tokenize_joinSp _ hgg]
          refine List.take_of_length_le ?_
          rw [List.length_drop]
          omega
        | cons r rs =>
          simp only [List.map_cons]
          rw [show joinSp (joinSp ((toks.drop s).take (min (s + cs) toks.length - s)) ::
              r.content :: (rs.map TextChunk.content)) =
            joinSp ((toks.drop s).take (min (s + cs) toks.length - s)) ++
              ' ' :: joinSp (r.content :: (rs.map TextChunk.content)) from rfl]
          rw [tokenize, tokAux_append_space]
          rw [show tokAux (joinSp ((toks.drop s).take (min (s + cs) toks.length - s))) [] =
            tokenize (joinSp ((toks.drop s).take (min (s + cs) toks.length - s))) from rfl]
          rw [show tokAux (joinSp (r.content :: (rs.map TextChunk.content))) [] =
            tokenize (joinSp (r.content :: (rs.map TextChunk.content))) from rfl]
          rw [tokenize_joinSp _ hgg]
          have hih := ih (num + 1) (min (s + cs) toks.length) (r :: rs) hrec
          simp only [List.map_cons] at hih
          rw [hih]
          have hd : toks.drop (min (s + cs) toks.length) =
              (toks.drop s).drop (min (s + cs) toks.length - s) := by
            rw [List.drop_drop]
            congr 1
            omega
          rw [hd, List.take_append_drop]
    · rw [chunkByToksFuel, if_neg hs] at h
      injection h with h
      subst h
      rw [show joinSp (([] : List TextChunk).map TextChunk.content) = [] from rfl]
      rw [show tokenize [] = [] from rfl]
      rw [List.drop_eq_nil_of_le (by omega)]

/-! ### Claim theorems: token mode -/

/-- **C5.** With strategy `tokens` and overlap 0, whenever the loop
completes, the chunk contents (each chunk being its tokens joined by single
spaces), reassembled via the join separator " ", tokenize to exactly the
token sequence of the whole source. -/
theorem c5_tokens_reassemble (t : List Char) (cs fuel : Nat) (chunks : List TextChunk)
    (h : chunkByToksFuel (tokenize t) cs 0 fuel 1 0 = some chunks) :
    tokenize (joinSp (chunks.map TextChunk.content)) = tokenize t := by
  have hgood : ∀ w ∈ tokenize t, tokenize w = [w] :=
    tokAux_mem_good t [] (by simp)
  simpa using chunkByToksFuel_reassemble (tokenize t) cs hgood fuel 1 0 chunks h

/-- Witness for C5 at a concrete input: "ab, c de" tokenizes to 4 tokens;
with chunk size 3 the run completes with chunks "ab , c" and "de", and the
reassembled text "ab , c de" tokenizes back to the same token sequence. -/
theorem c5_tokens_reassemble_w :
    tokenize (joinSp (([⟨1, 0, 3, "ab , c".toList⟩, ⟨2, 3, 4, "de".toList⟩] :
        List TextChunk).map TextChunk.content)) = tokenize "ab, c de".toList :=
  c5_tokens_reassemble "ab, c de".toList 3 10
    [⟨1, 0, 3, "ab , c".toList⟩, ⟨2, 3, 4, "de".toList⟩] (by decide)
